import Mathlib

/-!
Verification development for the Knowledge_Graph_Generator repository.

The two algorithmic components are embedded shallowly:

* `build_graph_from_triplets` (src/graph_builder.py): folds a list of
  (subject, predicate, object) triplets into a directed graph.  Python's
  `None` is modelled by `Option.none` on the subject/object positions;
  the per-edge predicate set (a Python `set`) is modelled as a
  first-insertion-ordered duplicate-free list, which represents the same
  set of strings; the final `list(set)` exposure step, whose order Python
  leaves unspecified, is modelled separately by `exposeGraph` applied to
  an arbitrary enumeration function.

* `deduplicate_entities` (src/embeddings.py): greedy single-pass
  clustering of mention strings by similarity to the cluster seed.  The
  sentence-transformers model is an external collaborator, so the
  pairwise similarity is a parameter `sim` (the code's value is the
  cosine of the two normalized embedding vectors, see `cosSim` below);
  the floating-point similarity and threshold values are modelled over
  an arbitrary linear order (the code's float values embed into `ℚ`/`ℝ`).

* `normalize` (app.py): case-insensitive bidirectional substring match
  of a mention against the representative list.
-/

/-- Edge record of the graph: NetworkX edge attributes `label`, `weight`,
and `preds`, keyed by source/target node label. -/
structure Edge where
  src : String
  tgt : String
  label : String
  weight : Nat
  preds : List String
deriving DecidableEq

/-- Graph model: node labels in insertion order (every node carries the
constant attributes `label = name`, `type = "entity"`, omitted), and at
most one edge per ordered pair, in insertion order. -/
structure Graph where
  nodes : List String
  edges : List Edge
deriving DecidableEq

/-- A triplet as received by the builder; `none` models Python `None`
in the subject or object position. -/
abbrev Triplet := Option String × String × Option String

/-- `G.has_edge(s, o)` test for one stored edge. -/
def edgeKey (s o : String) (e : Edge) : Bool :=
  e.src == s && e.tgt == o

/-- The builder's update of an existing edge: `weight += 1` and
`preds.add(p)` (a set add: no change when `p` is already present). -/
def bumpEdge (p : String) (e : Edge) : Edge :=
  { e with weight := e.weight + 1,
           preds := if p ∈ e.preds then e.preds else e.preds ++ [p] }

/-- One iteration of the builder's `for s, p, o in triplets` loop. -/
def addTriplet (G : Graph) (t : Triplet) : Graph :=
  match t with
  | (some s, p, some o) =>
    let G1 : Graph := if s ∈ G.nodes then G else ⟨G.nodes ++ [s], G.edges⟩
    let G2 : Graph := if o ∈ G1.nodes then G1 else ⟨G1.nodes ++ [o], G1.edges⟩
    if G2.edges.any (edgeKey s o) then
      ⟨G2.nodes, G2.edges.map (fun e => if edgeKey s o e then bumpEdge p e else e)⟩
    else
      ⟨G2.nodes, G2.edges ++ [⟨s, o, p, 1, [p]⟩]⟩
  | _ => G

/-- `build_graph_from_triplets` from src/graph_builder.py. -/
def build_graph_from_triplets (ts : List Triplet) : Graph :=
  ts.foldl addTriplet ⟨[], []⟩

/-- A triplet is well-formed when neither subject nor object is `None`
(the only condition the builder's skip test checks). -/
def wellFormed (t : Triplet) : Bool :=
  t.1.isSome && t.2.2.isSome

/-- Whether a triplet is non-skipped and its (subject, object) pair is
exactly (u, v). -/
def tripletMatches (u v : String) (t : Triplet) : Bool :=
  match t with
  | (some s, _, some o) => s == u && o == v
  | _ => false

/-- Number of non-skipped triplets whose (subject, object) pair is (u, v). -/
def countPair (ts : List Triplet) (u v : String) : Nat :=
  ts.countP (tripletMatches u v)

/-- The ordered node pairs of the stored edges (NetworkX allows at most
one edge per ordered pair, so these stay pairwise distinct). -/
def edgeKeys (es : List Edge) : List (String × String) :=
  es.map (fun e => (e.src, e.tgt))

/-- Weight of the first stored edge with node pair (s, o), or 0. -/
def keyWeight (es : List Edge) (s o : String) : Nat :=
  match es.find? (edgeKey s o) with
  | some e => e.weight
  | none => 0

/-- The final `data["preds"] = list(data["preds"])` loop of the builder:
each edge's stored predicate set is exposed through an arbitrary
enumeration function `enum`, since Python specifies no iteration order
for a `set`. -/
def exposeGraph (enum : List String → List String) (G : Graph) : Graph :=
  ⟨G.nodes, G.edges.map (fun e => { e with preds := enum e.preds })⟩

/-- Python's `max(strings, key=len)`: scans left to right and keeps the
current element unless a strictly longer one appears, so the first
longest element wins.  (Never applied to `[]`; the default is arbitrary.) -/
def pyStep (acc y : String) : String :=
  if acc.length < y.length then y else acc

def pyMaxByLen (l : List String) : String :=
  match l with
  | [] => ""
  | x :: xs => xs.foldl pyStep x

/-- Inner loop of `deduplicate_entities`: `for j in range(i+1, n)` —
skip visited `j`; when the similarity of `j` to the seed `i` reaches the
threshold, append `j` to the cluster and mark it visited.  Returns the
appended members and the updated visited set (modelled as a list). -/
def scanRest {α : Type} [LinearOrder α] (sim : Nat → Nat → α) (t : α) (i : Nat) :
    List Nat → List Nat → List Nat × List Nat
  | [], visited => ([], visited)
  | j :: js, visited =>
    if j ∈ visited then scanRest sim t i js visited
    else if t ≤ sim i j then
      let r := scanRest sim t i js (j :: visited)
      (j :: r.1, r.2)
    else scanRest sim t i js visited

/-- Outer loop of `deduplicate_entities`: `for i in range(n)` — skip
visited seeds, otherwise open the cluster `[i]` and scan
`range(i+1, n)` for members. -/
def outerScan {α : Type} [LinearOrder α] (sim : Nat → Nat → α) (t : α) (n : Nat) :
    List Nat → List Nat → List (List Nat)
  | [], _ => []
  | i :: is, visited =>
    if i ∈ visited then outerScan sim t n is visited
    else
      let s := scanRest sim t i (List.range' (i + 1) (n - (i + 1))) (i :: visited)
      (i :: s.1) :: outerScan sim t n is s.2

/-- The greedy clustering of `deduplicate_entities`: clusters of mention
indices, each a seed followed by the later indices whose similarity to
the seed reaches the threshold. -/
def greedyClusters {α : Type} [LinearOrder α] (n : Nat) (sim : Nat → Nat → α) (t : α) :
    List (List Nat) :=
  outerScan sim t n (List.range n) []

/-- `deduplicate_entities` from src/embeddings.py.  The external
embedding model is abstracted into the pairwise similarity `sim`
(the code computes `sim i j` as the cosine of the normalized embeddings
of mentions `i` and `j`, cf. `cosSim`); similarity and threshold values
live in an arbitrary linear order, which the code's float values embed
into. -/
def deduplicate_entities {α : Type} [LinearOrder α]
    (entity_texts : List String) (sim : Nat → Nat → α) (threshold : α) : List String :=
  if entity_texts.isEmpty then []
  else
    (greedyClusters entity_texts.length sim threshold).map
      (fun c => pyMaxByLen (c.map (fun i => entity_texts.getD i "")))

/-- `deduplicate_entities` driven by a string-level similarity (a
deterministic embedding provider followed by cosine yields one):
needed to express re-deduplication, where the second pass runs on the
representative strings of the first. -/
def dedupStr {α : Type} [LinearOrder α]
    (entity_texts : List String) (simS : String → String → α) (threshold : α) : List String :=
  deduplicate_entities entity_texts
    (fun i j => simS (entity_texts.getD i "") (entity_texts.getD j "")) threshold

/-- Python's `needle in hay` substring test on character lists. -/
def substrOf (needle : List Char) : List Char → Bool
  | [] => needle.isEmpty
  | c :: rest => needle.isPrefixOf (c :: rest) || substrOf needle rest

/-- Python's `str.lower()` as a character list (Lean's `String.toLower`
maps `Char.toLower` over the characters in the same way). -/
def lowerChars (s : String) : List Char :=
  s.toList.map Char.toLower

/-- The match test of app.py's `normalize`:
`e.lower() in r.lower() or r.lower() in e.lower()`. -/
def matchCI (e r : String) : Bool :=
  substrOf (lowerChars e) (lowerChars r) || substrOf (lowerChars r) (lowerChars e)

/-- The `for r in reps` loop of `normalize`: return the first
representative matching the mention, else the mention itself. -/
def normLoop (e : String) : List String → String
  | [] => e
  | r :: rest => if matchCI e r then r else normLoop e rest

/-- `normalize` from app.py (the name `normalize` itself is taken by
Mathlib, so the source name lives in the `App` namespace): falsy (empty)
mentions are returned unchanged before the loop runs. -/
def App.normalize (reps : List String) (e : String) : String :=
  if e = "" then e else normLoop e reps

/-- Sum of squares of a vector (`np.linalg.norm` squared); float entries
are modelled as reals. -/
noncomputable def sumSq (v : List ℝ) : ℝ :=
  (v.map (fun x => x * x)).sum

/-- `np.linalg.norm(embs, axis=1)` entry: the L2 norm of one embedding. -/
noncomputable def l2norm (v : List ℝ) : ℝ :=
  Real.sqrt (sumSq v)

/-- The guarded norm of `deduplicate_entities`:
`norms[norms == 0] = 1e-9` replaces a zero norm by the epsilon before
the division `embs / norms`. -/
noncomputable def safeNorm (v : List ℝ) : ℝ :=
  if l2norm v = 0 then 1e-9 else l2norm v

/-- `embs_norm = embs / norms`: one row of the normalized matrix. -/
noncomputable def normalizeVec (v : List ℝ) : List ℝ :=
  v.map (fun x => x / safeNorm v)

/-- Dot product of two real vectors (`np.dot`). -/
noncomputable def dotR : List ℝ → List ℝ → ℝ
  | x :: xs, y :: ys => x * y + dotR xs ys
  | _, _ => 0

/-- `cos = float(np.dot(embs_norm[i], embs_norm[j]))`: the similarity
the code feeds to the threshold test, as a function of the two raw
embedding vectors. -/
noncomputable def cosSim (v w : List ℝ) : ℝ :=
  dotR (normalizeVec v) (normalizeVec w)

/-- `deduplicate_entities` with an explicit real-embedding provider:
exactly the code's pipeline, with `sim i j` the cosine of the two
normalized embeddings. -/
noncomputable def dedupReal (entity_texts : List String)
    (emb : String → List ℝ) (threshold : ℝ) : List String :=
  deduplicate_entities entity_texts
    (fun i j => cosSim (emb (entity_texts.getD i "")) (emb (entity_texts.getD j "")))
    threshold


/-- Dot product of two rational vectors, used to build a concrete
deterministic embedding provider for counterexamples. -/
def dotQ : List ℚ → List ℚ → ℚ
  | x :: xs, y :: ys => x * y + dotQ xs ys
  | _, _ => 0

/-- A concrete deterministic embedding provider: three unit vectors in
the plane (their L2 norms are exactly 1, so the code's normalization
leaves them unchanged and its cosine is exactly their dot product). -/
def embCE (x : String) : List ℚ :=
  if x = "ab" then [3 / 5, 4 / 5]
  else if x = "abc" then [1, 0]
  else if x = "xyz" then [4 / 5, -(3 / 5)]
  else [0, 0]

/-- The cosine similarity induced by the provider `embCE`. -/
def simCE (x y : String) : ℚ :=
  dotQ (embCE x) (embCE y)

/-! ### Lemmas about the graph builder -/

/-- A triplet with a `None` subject or object leaves the graph unchanged. -/
theorem addTriplet_not_wellFormed (G : Graph) (t : Triplet)
    (h : wellFormed t = false) : addTriplet G t = G := by
  obtain ⟨s, p, o⟩ := t
  cases s <;> cases o <;> simp_all [wellFormed, addTriplet]

theorem foldl_addTriplet_filter (ts : List Triplet) :
    ∀ G : Graph, ts.foldl addTriplet G = (ts.filter wellFormed).foldl addTriplet G := by
  induction ts with
  | nil => intro G; rfl
  | cons t ts ih =>
    intro G
    by_cases h : wellFormed t = true
    · rw [List.foldl_cons, List.filter_cons_of_pos h, List.foldl_cons, ih]
    · rw [List.foldl_cons, List.filter_cons_of_neg h,
        addTriplet_not_wellFormed G t (by simpa using h), ih]

/-- C1 (counterexample): the triplet `("A","rel","")` is NOT skipped by
`build_graph_from_triplets` — the code only tests `is None`, and the
empty string is not `None` — so it produces 2 nodes and 1 edge, not
0 and 0 as the claim states. -/
theorem c1_empty_object_not_skipped :
    (build_graph_from_triplets [(some "A", "rel", some "")]).nodes.length = 2 ∧
    (build_graph_from_triplets [(some "A", "rel", some "")]).edges.length = 1 := by
  constructor <;> decide

/-- C1 (amended): a triplet whose subject or object is absent (`None`)
is skipped and contributes nothing to the graph: building from any
triplet list equals building from its well-formed sublist. -/
theorem c1_none_triplet_contributes_nothing (ts : List Triplet) :
    build_graph_from_triplets ts = build_graph_from_triplets (ts.filter wellFormed) :=
  foldl_addTriplet_filter ts ⟨[], []⟩

/-- C2 (code_bug evidence): the builder stores each edge's predicates in
a Python `set` and exposes them with `list(...)`, whose order is
unspecified.  Modelling the exposure by an arbitrary enumeration of the
stored set: the identity enumeration and the reversal enumeration both
enumerate exactly the stored predicates (they are permutations), yet
they expose different graphs for the input
`[("A","p","B"), ("A","q","B")]` — the code does not determine the
`preds` order, contradicting the claimed determinism of exposure. -/
theorem c2_preds_exposure_order_unspecified :
    (∀ l : List String, l.reverse.Perm l) ∧
    exposeGraph (fun l => l)
        (build_graph_from_triplets [(some "A", "p", some "B"), (some "A", "q", some "B")]) ≠
      exposeGraph (fun l => l.reverse)
        (build_graph_from_triplets [(some "A", "p", some "B"), (some "A", "q", some "B")]) :=
  ⟨fun l => l.reverse_perm, by decide⟩

/-- C3: the triplets `[("A","works_at","B"), ("A","works_at","B"),
("A","founded","B")]` produce exactly one edge, from "A" to "B", with
weight 3, predicate set exactly {"works_at", "founded"}, and label
"works_at" (the predicate of the first occurrence). -/
theorem c3_edge_aggregation :
    (build_graph_from_triplets
        [(some "A", "works_at", some "B"), (some "A", "works_at", some "B"),
         (some "A", "founded", some "B")]).edges =
      [⟨"A", "B", "works_at", 3, ["works_at", "founded"]⟩] := by
  decide

/-! ### Lemmas about the greedy clustering loops -/

section ClusterLemmas

variable {α : Type} [LinearOrder α] (sim : Nat → Nat → α) (t : α)

theorem scanRest_visited (i : Nat) :
    ∀ (js v : List Nat), (scanRest sim t i js v).2 = (scanRest sim t i js v).1.reverse ++ v := by
  intro js
  induction js with
  | nil => intro v; simp [scanRest]
  | cons j js ih =>
    intro v
    by_cases h1 : j ∈ v
    · simp [scanRest, h1, ih v]
    · by_cases h2 : t ≤ sim i j
      · simp [scanRest, h1, h2, ih (j :: v)]
      · simp [scanRest, h1, h2, ih v]

theorem scanRest_sublist (i : Nat) :
    ∀ (js v : List Nat), (scanRest sim t i js v).1.Sublist js := by
  intro js
  induction js with
  | nil => intro v; simp [scanRest]
  | cons j js ih =>
    intro v
    by_cases h1 : j ∈ v
    · simpa [scanRest, h1] using (ih v).cons j
    · by_cases h2 : t ≤ sim i j
      · simpa [scanRest, h1, h2] using (ih (j :: v)).cons₂ j
      · simpa [scanRest, h1, h2] using (ih v).cons j

theorem scanRest_mem (i : Nat) :
    ∀ (js v : List Nat) (j' : Nat), j' ∈ (scanRest sim t i js v).1 →
      j' ∉ v ∧ t ≤ sim i j' := by
  intro js
  induction js with
  | nil => intro v j' h; simp [scanRest] at h
  | cons j js ih =>
    intro v j' h
    by_cases h1 : j ∈ v
    · exact ih v j' (by simpa [scanRest, h1] using h)
    · by_cases h2 : t ≤ sim i j
      · simp only [scanRest, if_neg h1, if_pos h2, List.mem_cons] at h
        rcases h with rfl | h
        · exact ⟨h1, h2⟩
        · have := ih (j :: v) j' h
          exact ⟨fun hv => this.1 (List.mem_cons_of_mem j hv), this.2⟩
      · exact ih v j' (by simpa [scanRest, h1, h2] using h)

end ClusterLemmas

section OuterLemmas

variable {α : Type} [LinearOrder α] (sim : Nat → Nat → α) (t : α) (n : Nat)

theorem outerScan_shape :
    ∀ (is v : List Nat) (c : List Nat), c ∈ outerScan sim t n is v →
      ∃ i adds, c = i :: adds ∧ i ∈ is ∧ i ∉ v ∧
        adds.Sublist (List.range' (i + 1) (n - (i + 1))) ∧
        ∀ j ∈ adds, t ≤ sim i j := by
  intro is
  induction is with
  | nil => intro v c h; simp [outerScan] at h
  | cons i is ih =>
    intro v c h
    by_cases h1 : i ∈ v
    · obtain ⟨i', adds, rfl, hmem, hnv, hsub, hsim⟩ := ih v c (by simpa [outerScan, h1] using h)
      exact ⟨i', adds, rfl, List.mem_cons_of_mem i hmem, hnv, hsub, hsim⟩
    · simp only [outerScan, if_neg h1, List.mem_cons] at h
      rcases h with rfl | h
      · refine ⟨i, _, rfl, List.mem_cons_self i is, h1,
          scanRest_sublist sim t i _ _, fun j hj => (scanRest_mem sim t i _ _ j hj).2⟩
      · obtain ⟨i', adds, rfl, hmem, hnv, hsub, hsim⟩ := ih _ c h
        refine ⟨i', adds, rfl, List.mem_cons_of_mem i hmem, fun hv => hnv ?_, hsub, hsim⟩
        rw [scanRest_visited]
        exact List.mem_append_right _ (List.mem_cons_of_mem i hv)

theorem outerScan_heads :
    ∀ (is v : List Nat),
      ((outerScan sim t n is v).map (fun c => c.headD 0)).Sublist is := by
  intro is
  induction is with
  | nil => intro v; simp [outerScan]
  | cons i is ih =>
    intro v
    by_cases h1 : i ∈ v
    · simpa [outerScan, h1] using (ih v).cons i
    · simpa [outerScan, h1] using (ih _).cons₂ i

end OuterLemmas

theorem outerScan_join {α : Type} [LinearOrder α] (sim : Nat → Nat → α) (t : α) (n : Nat) :
    ∀ (k i : Nat) (v : List Nat), i + k = n →
      ((outerScan sim t n (List.range' i k) v).flatten.Nodup ∧
       ∀ j, j ∈ (outerScan sim t n (List.range' i k) v).flatten ↔
         (j ∈ List.range' i k ∧ j ∉ v)) := by
  intro k
  induction k with
  | zero =>
    intro i v _
    simp [outerScan]
  | succ k ih =>
    intro i v hn
    have hk : n - (i + 1) = k := by omega
    rw [List.range'_succ]
    by_cases h1 : i ∈ v
    · have hstep : outerScan sim t n (i :: List.range' (i + 1) k) v =
          outerScan sim t n (List.range' (i + 1) k) v := by
        simp [outerScan, h1]
      have H := ih (i + 1) v (by omega)
      rw [hstep]
      refine ⟨H.1, fun j => ?_⟩
      rw [H.2 j, List.mem_cons]
      constructor
      · rintro ⟨hj, hv⟩; exact ⟨Or.inr hj, hv⟩
      · rintro ⟨hj | hj, hv⟩
        · exact absurd (hj ▸ h1) hv
        · exact ⟨hj, hv⟩
    · have hstep : outerScan sim t n (i :: List.range' (i + 1) k) v =
          (i :: (scanRest sim t i (List.range' (i + 1) k) (i :: v)).1) ::
            outerScan sim t n (List.range' (i + 1) k)
              ((scanRest sim t i (List.range' (i + 1) k) (i :: v)).2) := by
        simp [outerScan, h1, hk]
      have hsub : (scanRest sim t i (List.range' (i + 1) k) (i :: v)).1.Sublist
          (List.range' (i + 1) k) := scanRest_sublist sim t i _ _
      have hmem : ∀ j ∈ (scanRest sim t i (List.range' (i + 1) k) (i :: v)).1,
          j ∉ (i :: v) ∧ t ≤ sim i j := scanRest_mem sim t i _ _
      have hv2 : ∀ j, j ∈ (scanRest sim t i (List.range' (i + 1) k) (i :: v)).2 ↔
          (j ∈ (scanRest sim t i (List.range' (i + 1) k) (i :: v)).1 ∨ j = i ∨ j ∈ v) := by
        intro j
        rw [scanRest_visited]
        simp [List.mem_append, List.mem_reverse, List.mem_cons]
      have hC_range : ∀ j ∈ (scanRest sim t i (List.range' (i + 1) k) (i :: v)).1,
          i + 1 ≤ j ∧ j < i + 1 + k := by
        intro j hj
        have := hsub.subset hj
        simpa using (List.mem_range'_1).mp this
      have H := ih (i + 1) ((scanRest sim t i (List.range' (i + 1) k) (i :: v)).2) (by omega)
      rw [hstep]
      simp only [List.flatten, List.cons_append]  -- join ((i::C) :: rest) = (i::C) ++ rest.join
      constructor
      · -- Nodup of i :: (C ++ J')
        refine List.Nodup.cons ?_ (List.Nodup.append ?_ H.1 ?_)
        · intro hmem_i
          rcases List.mem_append.mp hmem_i with hiC | hiJ
          · exact absurd ((hC_range i hiC).1) (by omega)
          · have := (H.2 i).mp hiJ
            have := (List.mem_range'_1).mp this.1
            omega
        · exact hsub.nodup (List.nodup_range' _ _)
        · -- Disjoint C J'
          intro j hjC hjJ
          have hjv2 : j ∈ (scanRest sim t i (List.range' (i + 1) k) (i :: v)).2 :=
            (hv2 j).mpr (Or.inl hjC)
          exact ((H.2 j).mp hjJ).2 hjv2
      · intro j
        simp only [List.mem_cons, List.mem_append]
        constructor
        · rintro (rfl | hjC | hjJ)
          · exact ⟨Or.inl rfl, h1⟩
          · refine ⟨Or.inr (hsub.subset hjC), fun hv => (hmem j hjC).1 (List.mem_cons_of_mem i hv)⟩
          · obtain ⟨hjR, hjv2⟩ := (H.2 j).mp hjJ
            refine ⟨Or.inr hjR, fun hv => hjv2 ((hv2 j).mpr (Or.inr (Or.inr hv)))⟩
        · rintro ⟨rfl | hjR, hnv⟩
          · exact Or.inl rfl
          · by_cases hjC : j ∈ (scanRest sim t i (List.range' (i + 1) k) (i :: v)).1
            · exact Or.inr (Or.inl hjC)
            · refine Or.inr (Or.inr ((H.2 j).mpr ⟨hjR, fun hjv2 => ?_⟩))
              rcases (hv2 j).mp hjv2 with h | h | h
              · exact hjC h
              · have := (List.mem_range'_1).mp hjR; omega
              · exact hnv h

theorem greedyClusters_shape {α : Type} [LinearOrder α] (sim : Nat → Nat → α) (t : α)
    (n : Nat) (c : List Nat) (hc : c ∈ greedyClusters n sim t) :
    ∃ i adds, c = i :: adds ∧ i < n ∧
      (∀ j ∈ adds, t ≤ sim i j ∧ i < j ∧ j < n) := by
  obtain ⟨i, adds, rfl, hmem, -, hsub, hsim⟩ := outerScan_shape sim t n _ _ c hc
  have hi : i < n := by simpa using hmem
  refine ⟨i, adds, rfl, hi, fun j hj => ⟨hsim j hj, ?_⟩⟩
  have := (List.mem_range'_1).mp (hsub.subset hj)
  omega

theorem greedyClusters_flatten {α : Type} [LinearOrder α] (sim : Nat → Nat → α) (t : α)
    (n : Nat) :
    (greedyClusters n sim t).flatten.Nodup ∧
      ∀ j, j ∈ (greedyClusters n sim t).flatten ↔ j < n := by
  have H := outerScan_join sim t n n 0 [] (by omega)
  rw [greedyClusters, List.range_eq_range']
  refine ⟨H.1, fun j => ?_⟩
  rw [H.2 j]
  simp

/-! ### Python `max(key=len)` returns the first longest element -/

theorem pyFold_spec :
    ∀ (xs : List String) (x : String),
      (xs.foldl pyStep x = x ∨ xs.foldl pyStep x ∈ xs) ∧
      x.length ≤ (xs.foldl pyStep x).length ∧
      (∀ y ∈ xs, y.length ≤ (xs.foldl pyStep x).length) ∧
      (xs.foldl pyStep x ≠ x →
        ∃ k, k < xs.length ∧ xs.getD k "" = xs.foldl pyStep x ∧
          x.length < (xs.foldl pyStep x).length ∧
          ∀ m, m < k → (xs.getD m "").length < (xs.foldl pyStep x).length) := by
  intro xs
  induction xs with
  | nil => intro x; refine ⟨Or.inl rfl, le_refl _, by simp, fun h => absurd rfl h⟩
  | cons y ys ih =>
    intro x
    rw [List.foldl_cons]
    obtain ⟨ha, hx, hall, hfirst⟩ := ih (pyStep x y)
    by_cases hxy : x.length < y.length
    · have hstep : pyStep x y = y := by simp [pyStep, hxy]
      rw [hstep] at ha hx hall hfirst ⊢
      refine ⟨?_, ?_, ?_, ?_⟩
      · rcases ha with h | h
        · exact Or.inr (by rw [h]; exact List.mem_cons_self y ys)
        · exact Or.inr (List.mem_cons_of_mem y h)
      · exact le_trans (le_of_lt hxy) hx
      · intro z hz
        rcases List.mem_cons.mp hz with rfl | hz
        · exact hx
        · exact hall z hz
      · intro _
        by_cases hres : ys.foldl pyStep y = y
        · refine ⟨0, by simp, by simpa using hres.symm, by rw [hres]; exact hxy, by omega⟩
        · obtain ⟨k, hk, hget, hlen, hbefore⟩ := hfirst hres
          refine ⟨k + 1, by simpa using hk, by simpa using hget, lt_trans hxy hlen, ?_⟩
          intro m hm
          cases m with
          | zero => simpa using hlen
          | succ m => simpa using hbefore m (by omega)
    · have hstep : pyStep x y = x := by simp [pyStep, hxy]
      rw [hstep] at ha hx hall hfirst ⊢
      refine ⟨?_, hx, ?_, ?_⟩
      · rcases ha with h | h
        · exact Or.inl h
        · exact Or.inr (List.mem_cons_of_mem y h)
      · intro z hz
        rcases List.mem_cons.mp hz with rfl | hz
        · exact le_trans (le_of_not_lt hxy) hx
        · exact hall z hz
      · intro hne
        obtain ⟨k, hk, hget, hlen, hbefore⟩ := hfirst hne
        refine ⟨k + 1, by simpa using hk, by simpa using hget, hlen, ?_⟩
        intro m hm
        cases m with
        | zero => exact lt_of_le_of_lt (le_of_not_lt hxy) hlen
        | succ m => simpa using hbefore m (by omega)

theorem pyMaxByLen_first (l : List String) (hl : l ≠ []) :
    pyMaxByLen l ∈ l ∧
    (∀ y ∈ l, y.length ≤ (pyMaxByLen l).length) ∧
    ∃ k, k < l.length ∧ l.getD k "" = pyMaxByLen l ∧
      ∀ m, m < k → (l.getD m "").length < (pyMaxByLen l).length := by
  match l with
  | [] => exact absurd rfl hl
  | x :: xs =>
    obtain ⟨ha, hx, hall, hfirst⟩ := pyFold_spec xs x
    have hdef : pyMaxByLen (x :: xs) = xs.foldl pyStep x := rfl
    refine ⟨?_, ?_, ?_⟩
    · rw [hdef]
      rcases ha with h | h
      · rw [h]; exact List.mem_cons_self x xs
      · exact List.mem_cons_of_mem x h
    · intro y hy
      rw [hdef]
      rcases List.mem_cons.mp hy with rfl | hy
      · exact hx
      · exact hall y hy
    · rw [hdef]
      by_cases hres : xs.foldl pyStep x = x
      · exact ⟨0, by simp, by simpa using hres.symm, by omega⟩
      · obtain ⟨k, hk, hget, hlen, hbefore⟩ := hfirst hres
        refine ⟨k + 1, by simpa using hk, by simpa using hget, ?_⟩
        intro m hm
        cases m with
        | zero => simpa using hlen
        | succ m => simpa using hbefore m (by omega)

/-- C5: for every cluster formed by `deduplicate_entities`, the emitted
representative is a member of maximal character count, and it is the
first member attaining that length in the cluster's member order (which
is input order): every earlier member is strictly shorter. -/
theorem c5_representative_first_longest {α : Type} [LinearOrder α]
    (texts : List String) (sim : Nat → Nat → α) (t : α) (c : List Nat)
    (hc : c ∈ greedyClusters texts.length sim t) :
    pyMaxByLen (c.map (fun i => texts.getD i "")) ∈ deduplicate_entities texts sim t ∧
    pyMaxByLen (c.map (fun i => texts.getD i "")) ∈ c.map (fun i => texts.getD i "") ∧
    (∀ y ∈ c.map (fun i => texts.getD i ""),
      y.length ≤ (pyMaxByLen (c.map (fun i => texts.getD i ""))).length) ∧
    ∃ k, k < (c.map (fun i => texts.getD i "")).length ∧
      (c.map (fun i => texts.getD i "")).getD k "" = pyMaxByLen (c.map (fun i => texts.getD i "")) ∧
      ∀ m, m < k →
        ((c.map (fun i => texts.getD i "")).getD m "").length <
          (pyMaxByLen (c.map (fun i => texts.getD i ""))).length := by
  obtain ⟨i, adds, rfl, hi, -⟩ := greedyClusters_shape sim t texts.length c hc
  have hne : (i :: adds).map (fun i => texts.getD i "") ≠ [] := by simp
  obtain ⟨hmem, hmax, k, hk, hget, hbefore⟩ := pyMaxByLen_first _ hne
  refine ⟨?_, hmem, hmax, k, hk, hget, hbefore⟩
  have htne : ¬ texts.isEmpty := by
    cases texts with
    | nil => exact absurd hi (by simp)
    | cons a l => simp
  rw [deduplicate_entities, if_neg htne]
  exact List.mem_map_of_mem _ hc

/-- C5 witness: on mentions ["a", "bb"] with a constant similarity 1 and
threshold 0, the single cluster is [0, 1] and its representative "bb"
(the longest member) is emitted. -/
theorem c5_witness :
    ("bb" : String) ∈ deduplicate_entities ["a", "bb"] (fun _ _ => (1 : ℤ)) 0 := by
  have h := c5_representative_first_longest ["a", "bb"] (fun _ _ => (1 : ℤ)) 0 [0, 1]
    (by decide)
  simpa using h.1

/-- C6: `deduplicate_entities` clusters by a single greedy pass: every
cluster is its seed followed by later mentions whose similarity TO THE
SEED reaches the threshold; clusters are listed in seed-first-seen
order (their seeds strictly increase); and clustering is not
transitive: with similarities sim(0,1) = sim(1,2) = 1 ≥ threshold but
sim(0,2) = 0 < threshold, mention 2 is NOT grouped with 0 and 1 —
the clusters are [[0, 1], [2]]. -/
theorem c6_greedy_seed_only_clustering {α : Type} [LinearOrder α]
    (sim : Nat → Nat → α) (t : α) (n : Nat) :
    (∀ c ∈ greedyClusters n sim t, ∃ seed adds, c = seed :: adds ∧
      ∀ j ∈ adds, seed < j ∧ t ≤ sim seed j) ∧
    ((greedyClusters n sim t).map (fun c => c.headD 0)).Sorted (· < ·) ∧
    ((1 : ℤ) ≤ (fun i j => if (i, j) = (0, 1) ∨ (i, j) = (1, 2) then (1 : ℤ) else 0) 0 1 ∧
     (1 : ℤ) ≤ (fun i j => if (i, j) = (0, 1) ∨ (i, j) = (1, 2) then (1 : ℤ) else 0) 1 2 ∧
     (fun i j => if (i, j) = (0, 1) ∨ (i, j) = (1, 2) then (1 : ℤ) else 0) 0 2 < 1 ∧
     greedyClusters 3 (fun i j => if (i, j) = (0, 1) ∨ (i, j) = (1, 2) then (1 : ℤ) else 0) 1 =
       [[0, 1], [2]]) := by
  refine ⟨?_, ?_, by decide, by decide, by decide, by decide⟩
  · intro c hc
    obtain ⟨i, adds, rfl, -, hmem⟩ := greedyClusters_shape sim t n c hc
    exact ⟨i, adds, rfl, fun j hj => ⟨(hmem j hj).2.1, (hmem j hj).1⟩⟩
  · exact (List.sorted_lt_range n).sublist (outerScan_heads sim t n _ _)

/-- C6 witness: the structural conjunct applied to the concrete cluster
[0, 1] of the non-transitivity instance: its seed is 0 and its single
member 1 is later than the seed with seed similarity above threshold. -/
theorem c6_witness :
    ∃ seed adds, ([0, 1] : List Nat) = seed :: adds ∧
      ∀ j ∈ adds, seed < j ∧
        (1 : ℤ) ≤ (fun i j => if (i, j) = (0, 1) ∨ (i, j) = (1, 2) then (1 : ℤ) else 0) seed j :=
  (c6_greedy_seed_only_clustering
    (fun i j => if (i, j) = (0, 1) ∨ (i, j) = (1, 2) then (1 : ℤ) else 0) 1 3).1
    [0, 1] (by decide)

/-- C10: the clusters of `deduplicate_entities` partition the input
indices (their concatenation contains every index below the input
length exactly once); the output is empty exactly when the input is;
every returned representative is one of the input strings; and the
output length never exceeds the input length. -/
theorem c10_dedup_invariants {α : Type} [LinearOrder α]
    (texts : List String) (sim : Nat → Nat → α) (t : α) :
    (deduplicate_entities texts sim t = [] ↔ texts = []) ∧
    (greedyClusters texts.length sim t).flatten.Nodup ∧
    (∀ j, j ∈ (greedyClusters texts.length sim t).flatten ↔ j < texts.length) ∧
    (∀ r ∈ deduplicate_entities texts sim t, r ∈ texts) ∧
    (deduplicate_entities texts sim t).length ≤ texts.length := by
  obtain ⟨hnodup, hmem⟩ := greedyClusters_flatten sim t texts.length
  have hlen : (greedyClusters texts.length sim t).length ≤ texts.length := by
    have h := (outerScan_heads sim t texts.length (List.range texts.length) []).length_le
    simpa using h
  refine ⟨?_, hnodup, hmem, ?_, ?_⟩
  · cases texts with
    | nil => simp [deduplicate_entities]
    | cons a l =>
      simp only [deduplicate_entities, List.isEmpty_cons, Bool.false_eq_true, if_false,
        List.map_eq_nil_iff]
      constructor
      · intro h
        have h0 : (0 : Nat) ∈ (greedyClusters (a :: l).length sim t).flatten :=
          (hmem 0).mpr (by simp)
        rw [h] at h0
        simp at h0
      · intro h; exact absurd h (by simp)
  · intro r hr
    have htne : ¬ texts.isEmpty := by
      intro h
      rw [deduplicate_entities, if_pos h] at hr
      simp at hr
    rw [deduplicate_entities, if_neg htne] at hr
    obtain ⟨c, hc, rfl⟩ := List.mem_map.mp hr
    obtain ⟨i, adds, rfl, hi, hadds⟩ := greedyClusters_shape sim t texts.length c hc
    have hne : (i :: adds).map (fun i => texts.getD i "") ≠ [] := by simp
    obtain ⟨hpm, -, -⟩ := pyMaxByLen_first _ hne
    obtain ⟨j, hj, hjeq⟩ := List.mem_map.mp hpm
    have hjn : j < texts.length := by
      rcases List.mem_cons.mp hj with rfl | hj
      · exact hi
      · exact (hadds j hj).2.2
    rw [← hjeq, List.getD_eq_getElem texts "" hjn]
    exact List.getElem_mem hjn
  · cases htne : texts.isEmpty
    · rw [deduplicate_entities, if_neg (by simp [htne])]
      simpa using hlen
    · rw [deduplicate_entities, if_pos htne]
      simp

/-- C10 witness: applying the invariants to the one-mention input
["a"]: the single representative "a" is one of the input strings. -/
theorem c10_witness : ("a" : String) ∈ (["a"] : List String) :=
  (c10_dedup_invariants ["a"] (fun _ _ => (0 : ℤ)) 1).2.2.2.1 "a" (by decide)

/-! ### Weight and predicate invariants of the builder -/

theorem bumpEdge_key (p : String) (e : Edge) (u v : String) :
    edgeKey u v (bumpEdge p e) = edgeKey u v e := by
  simp [edgeKey, bumpEdge]

theorem update_preserves_key (s o p u v : String) (e : Edge) :
    edgeKey u v (if edgeKey s o e then bumpEdge p e else e) = edgeKey u v e := by
  by_cases h : edgeKey s o e
  · simp [h, bumpEdge_key]
  · simp [h]

theorem addTriplet_edges (G : Graph) (s p o : String) :
    (addTriplet G (some s, p, some o)).edges =
      if G.edges.any (edgeKey s o) then
        G.edges.map (fun e => if edgeKey s o e then bumpEdge p e else e)
      else G.edges ++ [⟨s, o, p, 1, [p]⟩] := by
  simp only [addTriplet]
  split_ifs <;> rfl

theorem keyWeight_update (es : List Edge) (s o p : String)
    (hany : es.any (edgeKey s o) = true) (u v : String) :
    keyWeight (es.map (fun e => if edgeKey s o e then bumpEdge p e else e)) u v =
      keyWeight es u v + (if (s == u && o == v : Bool) then 1 else 0) := by
  have hfind : (es.map (fun e => if edgeKey s o e then bumpEdge p e else e)).find?
      (edgeKey u v) = (es.find? (edgeKey u v)).map
        (fun e => if edgeKey s o e then bumpEdge p e else e) := by
    rw [List.find?_map]
    have hcomp : (edgeKey u v ∘ fun e => if edgeKey s o e then bumpEdge p e else e) =
        edgeKey u v := funext (fun e => update_preserves_key s o p u v e)
    rw [hcomp]
  by_cases hsu : (s == u && o == v : Bool)
  · -- the touched key is exactly (u, v)
    have : s = u ∧ o = v := by
      simpa [Bool.and_eq_true, beq_iff_eq] using hsu
    obtain ⟨rfl, rfl⟩ := this
    obtain ⟨e₀, he₀, hkey⟩ := List.any_eq_true.mp hany
    have hsome : ∃ e₁, es.find? (edgeKey s o) = some e₁ := by
      cases hf : es.find? (edgeKey s o) with
      | none => exact absurd hkey (by simpa using List.find?_eq_none.mp hf e₀ he₀)
      | some e₁ => exact ⟨e₁, rfl⟩
    obtain ⟨e₁, hf⟩ := hsome
    have hkey₁ : edgeKey s o e₁ = true := List.find?_some hf
    rw [keyWeight, hfind, hf, keyWeight, hf]
    simp [hsu, hkey₁, bumpEdge]
  · -- a different key: its first matching edge is not updated
    rw [keyWeight, hfind, keyWeight]
    cases hf : es.find? (edgeKey u v) with
    | none => simp [hsu]
    | some e₁ =>
      have hkey₁ : edgeKey u v e₁ = true := List.find?_some hf
      have hne : edgeKey s o e₁ = false := by
        by_contra hcon
        have h' : edgeKey s o e₁ = true := by simpa using hcon
        have h1 : e₁.src = s ∧ e₁.tgt = o := by
          simpa [edgeKey, Bool.and_eq_true, beq_iff_eq] using h'
        have h2 : e₁.src = u ∧ e₁.tgt = v := by
          simpa [edgeKey, Bool.and_eq_true, beq_iff_eq] using hkey₁
        have hsv : s = u := h1.1.symm.trans h2.1
        have hov : o = v := h1.2.symm.trans h2.2
        exact hsu (by simp [hsv, hov])
      simp [hne, hsu]

theorem keyWeight_append (es : List Edge) (s o p : String)
    (hany : es.any (edgeKey s o) = false) (u v : String) :
    keyWeight (es ++ [⟨s, o, p, 1, [p]⟩]) u v =
      keyWeight es u v + (if (s == u && o == v : Bool) then 1 else 0) := by
  rw [keyWeight, List.find?_append, keyWeight]
  by_cases hsu : (s == u && o == v : Bool)
  · have : s = u ∧ o = v := by simpa [Bool.and_eq_true, beq_iff_eq] using hsu
    obtain ⟨rfl, rfl⟩ := this
    have hnone : es.find? (edgeKey s o) = none := by
      rw [List.find?_eq_none]
      intro e he
      have := List.any_eq_false.mp (by simpa using hany) e he
      simpa using this
    rw [hnone]
    simp [hsu, List.find?, edgeKey]
  · cases hf : es.find? (edgeKey u v) with
    | none =>
      have : edgeKey u v ⟨s, o, p, 1, [p]⟩ = false := by
        simpa [edgeKey] using hsu
      simp [hf, List.find?, this, hsu]
    | some e₁ => simp [hf, hsu]

theorem edgeKeys_update (es : List Edge) (s o p : String) :
    edgeKeys (es.map (fun e => if edgeKey s o e then bumpEdge p e else e)) = edgeKeys es := by
  rw [edgeKeys, edgeKeys, List.map_map]
  apply List.map_congr_left
  intro e _
  by_cases h : edgeKey s o e
  · simp [h, bumpEdge]
  · simp [h]

theorem addTriplet_keys_nodup (G : Graph) (t : Triplet)
    (h : (edgeKeys G.edges).Nodup) : (edgeKeys (addTriplet G t).edges).Nodup := by
  obtain ⟨so, p, oo⟩ := t
  cases so with
  | none => exact h
  | some s =>
    cases oo with
    | none => exact h
    | some o =>
      rw [addTriplet_edges]
      by_cases hany : G.edges.any (edgeKey s o) = true
      · rw [if_pos hany, edgeKeys_update]
        exact h
      · rw [if_neg hany, edgeKeys, List.map_append]
        rw [List.nodup_append]
        refine ⟨h, by simp, ?_⟩
        intro k hk hk2
        simp only [List.map_cons, List.map_nil, List.mem_singleton] at hk2
        subst hk2
        rw [edgeKeys] at *
        obtain ⟨e, he, hkey⟩ := List.mem_map.mp hk
        have := List.any_eq_false.mp (by simpa using hany) e he
        apply this
        have h1 : e.src = s ∧ e.tgt = o := Prod.mk.injEq _ _ _ _ ▸ Prod.mk.inj hkey
        simp [edgeKey, h1.1, h1.2]

theorem addTriplet_preds_nodup (G : Graph) (t : Triplet)
    (h : ∀ e ∈ G.edges, e.preds.Nodup) :
    ∀ e ∈ (addTriplet G t).edges, e.preds.Nodup := by
  obtain ⟨so, p, oo⟩ := t
  cases so with
  | none => exact h
  | some s =>
    cases oo with
    | none => exact h
    | some o =>
      rw [addTriplet_edges]
      by_cases hany : G.edges.any (edgeKey s o) = true
      · rw [if_pos hany]
        intro e' he'
        obtain ⟨e, he, rfl⟩ := List.mem_map.mp he'
        by_cases hk : edgeKey s o e
        · simp only [if_pos hk, bumpEdge]
          by_cases hp : p ∈ e.preds
          · simpa [hp] using h e he
          · simp only [if_neg hp]
            rw [List.nodup_append]
            exact ⟨h e he, by simp, by simpa using hp⟩
        · simpa [hk] using h e he
      · rw [if_neg hany]
        intro e' he'
        rcases List.mem_append.mp he' with he' | he'
        · exact h e' he'
        · simp only [List.mem_singleton] at he'
          subst he'
          simp

theorem find?_self_of_keys_nodup :
    ∀ (es : List Edge), (edgeKeys es).Nodup → ∀ e ∈ es,
      es.find? (edgeKey e.src e.tgt) = some e := by
  intro es
  induction es with
  | nil => intro _ e he; simp at he
  | cons a es ih =>
    intro hnd e he
    rw [edgeKeys, List.map_cons, List.nodup_cons] at hnd
    rcases List.mem_cons.mp he with rfl | he
    · have : edgeKey e.src e.tgt e = true := by simp [edgeKey]
      simp [List.find?, this]
    · have hne : edgeKey e.src e.tgt a = false := by
        by_contra hcon
        have h' : edgeKey e.src e.tgt a = true := by simpa using hcon
        have h1 : a.src = e.src ∧ a.tgt = e.tgt := by
          simpa [edgeKey, Bool.and_eq_true, beq_iff_eq] using h'
        apply hnd.1
        rw [← edgeKeys] at *
        have : (e.src, e.tgt) ∈ edgeKeys es := by
          rw [edgeKeys]
          exact List.mem_map.mpr ⟨e, he, rfl⟩
        rw [h1.1, h1.2]
        exact this
      rw [List.find?]
      rw [hne]
      exact ih hnd.2 e he

theorem addTriplet_keyWeight (G : Graph) (t : Triplet) (u v : String) :
    keyWeight (addTriplet G t).edges u v =
      keyWeight G.edges u v + (if tripletMatches u v t then 1 else 0) := by
  obtain ⟨so, p, oo⟩ := t
  cases so with
  | none => simp [addTriplet, tripletMatches]
  | some s =>
    cases oo with
    | none => simp [addTriplet, tripletMatches]
    | some o =>
      rw [addTriplet_edges]
      have hmatch : tripletMatches u v (some s, p, some o) = (s == u && o == v : Bool) := rfl
      by_cases hany : G.edges.any (edgeKey s o) = true
      · rw [if_pos hany, keyWeight_update G.edges s o p hany u v, hmatch]
      · rw [if_neg hany, keyWeight_append G.edges s o p (by simpa using hany) u v, hmatch]

theorem build_inv :
    ∀ (ts : List Triplet) (G : Graph), (edgeKeys G.edges).Nodup →
      (edgeKeys ((ts.foldl addTriplet G).edges)).Nodup ∧
      (∀ u v, keyWeight ((ts.foldl addTriplet G).edges) u v =
        keyWeight G.edges u v + countPair ts u v) ∧
      ((∀ e ∈ G.edges, e.preds.Nodup) → ∀ e ∈ (ts.foldl addTriplet G).edges, e.preds.Nodup) := by
  intro ts
  induction ts with
  | nil =>
    intro G h
    exact ⟨h, fun u v => by simp [countPair], fun h' => h'⟩
  | cons t ts ih =>
    intro G h
    rw [List.foldl_cons]
    obtain ⟨h1, h2, h3⟩ := ih (addTriplet G t) (addTriplet_keys_nodup G t h)
    refine ⟨h1, fun u v => ?_, fun hp => h3 (addTriplet_preds_nodup G t hp)⟩
    rw [h2 u v, addTriplet_keyWeight G t u v]
    simp only [countPair, List.countP_cons]
    omega

/-- C4: in the built graph, every edge's weight equals the number of
non-skipped input triplets whose (subject, object) pair is that edge's
ordered node pair, and every edge's predicate list has no duplicates. -/
theorem c4_weight_counts_and_preds_nodup (ts : List Triplet) (e : Edge)
    (he : e ∈ (build_graph_from_triplets ts).edges) :
    e.weight = countPair ts e.src e.tgt ∧ e.preds.Nodup := by
  rw [build_graph_from_triplets] at he
  obtain ⟨hkeys, hw, hpre⟩ := build_inv ts ⟨[], []⟩ (by simp [edgeKeys])
  constructor
  · have hfind := find?_self_of_keys_nodup _ hkeys e he
    have hweq := hw e.src e.tgt
    rw [keyWeight, hfind] at hweq
    simpa [keyWeight] using hweq
  · exact hpre (by simp) e he

/-- C4 witness: the self-loop triplet ("A","p","A") yields the edge
A→A with weight 1 = its pair count and duplicate-free preds. -/
theorem c4_witness :
    (⟨"A", "A", "p", 1, ["p"]⟩ : Edge).weight =
      countPair [(some "A", "p", some "A")] "A" "A" ∧
    ((⟨"A", "A", "p", 1, ["p"]⟩ : Edge).preds).Nodup :=
  c4_weight_counts_and_preds_nodup [(some "A", "p", some "A")] ⟨"A", "A", "p", 1, ["p"]⟩
    (by decide)

/-! ### Idempotence analysis of deduplication -/

theorem scanRest_no_hit {α : Type} [LinearOrder α] (sim : Nat → Nat → α) (t : α) (i : Nat) :
    ∀ (js v : List Nat), (∀ j ∈ js, sim i j < t) → scanRest sim t i js v = ([], v) := by
  intro js
  induction js with
  | nil => intro v _; rfl
  | cons j js ih =>
    intro v h
    have hj : ¬ t ≤ sim i j := not_le.mpr (h j (List.mem_cons_self j js))
    by_cases h1 : j ∈ v
    · rw [scanRest, if_pos h1]
      exact ih v (fun j' hj' => h j' (List.mem_cons_of_mem j hj'))
    · rw [scanRest, if_neg h1, if_neg hj]
      exact ih v (fun j' hj' => h j' (List.mem_cons_of_mem j hj'))

theorem outerScan_all_below {α : Type} [LinearOrder α] (sim : Nat → Nat → α) (t : α) (n : Nat)
    (hsim : ∀ a b, a < b → b < n → sim a b < t) :
    ∀ (k i : Nat) (v : List Nat), i + k = n → (∀ j ∈ List.range' i k, j ∉ v) →
      outerScan sim t n (List.range' i k) v = (List.range' i k).map (fun x => [x]) := by
  intro k
  induction k with
  | zero => intro i v _ _; rfl
  | succ k ih =>
    intro i v hn hv
    rw [List.range'_succ]
    have hiv : i ∉ v := hv i (by rw [List.range'_succ]; exact List.mem_cons_self _ _)
    have hk : n - (i + 1) = k := by omega
    have hscan : scanRest sim t i (List.range' (i + 1) (n - (i + 1))) (i :: v) =
        ([], i :: v) := by
      apply scanRest_no_hit
      intro j hj
      rw [hk] at hj
      have := (List.mem_range'_1).mp hj
      exact hsim i j (by omega) (by omega)
    have hstep : outerScan sim t n (i :: List.range' (i + 1) k) v =
        [i] :: outerScan sim t n (List.range' (i + 1) k) (i :: v) := by
      rw [outerScan, if_neg hiv, hscan]
    rw [hstep, List.map_cons, ih (i + 1) (i :: v) (by omega) ?_]
    intro j hj
    have := (List.mem_range'_1).mp hj
    rw [List.mem_cons]
    push_neg
    refine ⟨by omega, hv j ?_⟩
    rw [List.range'_succ]
    exact List.mem_cons_of_mem i hj

theorem map_getD_range :
    ∀ (l : List String), (List.range l.length).map (fun i => l.getD i "") = l := by
  intro l
  induction l with
  | nil => rfl
  | cons a l ih =>
    rw [List.length_cons, List.range_succ_eq_map, List.map_cons, List.map_map]
    simp only [List.getD_cons_zero]
    have hcomp : ((fun i => (a :: l).getD i "") ∘ Nat.succ) = (fun i => l.getD i "") := by
      funext i
      simp [Function.comp, List.getD_cons_succ]
    rw [hcomp, ih]

/-- C7 (counterexample): deduplication is NOT idempotent.  With the
deterministic embedding provider `embCE` (three exact unit vectors, so
the code's cosine is exactly the rational dot product `simCE`) and
threshold 3/5: the first pass on ["ab","abc","xyz"] clusters "ab" with
"abc" (similarity 3/5) and leaves "xyz" alone (similarity 0 to the seed
"ab"), emitting ["abc","xyz"]; but sim("abc","xyz") = 4/5 ≥ 3/5, a pair
the first pass never compared, so the second pass merges them and drops
"xyz": the output set shrinks. -/
theorem c7_not_idempotent :
    dedupStr ["ab", "abc", "xyz"] simCE (3 / 5) = ["abc", "xyz"] ∧
    dedupStr (dedupStr ["ab", "abc", "xyz"] simCE (3 / 5)) simCE (3 / 5) = ["abc"] ∧
    ("xyz" : String) ∈ dedupStr ["ab", "abc", "xyz"] simCE (3 / 5) ∧
    ("xyz" : String) ∉
      dedupStr (dedupStr ["ab", "abc", "xyz"] simCE (3 / 5)) simCE (3 / 5) := by
  have h1 : dedupStr ["ab", "abc", "xyz"] simCE (3 / 5) = ["abc", "xyz"] := by
    norm_num [dedupStr, deduplicate_entities, greedyClusters, outerScan, scanRest,
      pyMaxByLen, pyStep, simCE, embCE, dotQ, List.range', List.range]
    decide
  have h2 : dedupStr ["abc", "xyz"] simCE (3 / 5) = ["abc"] := by
    norm_num [dedupStr, deduplicate_entities, greedyClusters, outerScan, scanRest,
      pyMaxByLen, pyStep, simCE, embCE, dotQ, List.range', List.range]
    decide
  refine ⟨h1, by rw [h1, h2], by rw [h1]; decide, by rw [h1, h2]; decide⟩

/-- C7 (amended): re-deduplication returns its input unchanged when no
two distinct members of that input reach the threshold (in particular a
second pass preserves the representative set whenever the first pass's
representatives are pairwise below threshold); unconditional idempotence
fails, see the counterexample. -/
theorem c7_amended_fixed_point {α : Type} [LinearOrder α]
    (texts : List String) (simS : String → String → α) (t : α)
    (h : ∀ i j, i < j → j < texts.length →
      simS (texts.getD i "") (texts.getD j "") < t) :
    dedupStr texts simS t = texts := by
  cases htne : texts.isEmpty
  · have hclusters : greedyClusters texts.length
        (fun i j => simS (texts.getD i "") (texts.getD j "")) t =
        (List.range texts.length).map (fun x => [x]) := by
      rw [greedyClusters, List.range_eq_range']
      rw [outerScan_all_below _ t texts.length (fun a b hab hb => h a b hab hb)
        texts.length 0 [] (by omega) (by simp)]
    rw [dedupStr, deduplicate_entities, if_neg (by simp [htne]), hclusters, List.map_map]
    have : ((fun c => pyMaxByLen (c.map (fun i => texts.getD i ""))) ∘ fun x => [x]) =
        (fun i => texts.getD i "") := by
      funext i
      rfl
    rw [this, map_getD_range]
  · rw [dedupStr, deduplicate_entities, if_pos htne]
    exact (List.isEmpty_iff.mp htne).symm

/-- C7 witness (for the amended claim): two mentions with constant
similarity 0 and threshold 1 are left unchanged by deduplication. -/
theorem c7_witness :
    dedupStr ["a", "b"] (fun _ _ => (0 : ℤ)) 1 = ["a", "b"] :=
  c7_amended_fixed_point ["a", "b"] (fun _ _ => (0 : ℤ)) 1
    (fun i j _ _ => show (0 : ℤ) < 1 by norm_num)

/-! ### Normalization: first match, and the empty-mention bypass -/

theorem normLoop_first :
    ∀ (reps : List String) (e : String),
      ((∀ r ∈ reps, matchCI e r = false) → normLoop e reps = e) ∧
      ((∃ r ∈ reps, matchCI e r = true) →
        ∃ k, k < reps.length ∧ normLoop e reps = reps.getD k "" ∧
          matchCI e (reps.getD k "") = true ∧
          ∀ m, m < k → matchCI e (reps.getD m "") = false) := by
  intro reps
  induction reps with
  | nil =>
    intro e
    exact ⟨fun _ => rfl, fun h => by simp at h⟩
  | cons r rest ih =>
    intro e
    by_cases hm : matchCI e r = true
    · refine ⟨fun hall => absurd hm ?_, fun _ => ⟨0, by simp, ?_, ?_, by omega⟩⟩
      · simp [hall r (List.mem_cons_self r rest)]
      · simp [normLoop, hm]
      · simpa using hm
    · have hloop : normLoop e (r :: rest) = normLoop e rest := by
        simp [normLoop, hm]
      constructor
      · intro hall
        rw [hloop]
        exact (ih e).1 (fun r' hr' => hall r' (List.mem_cons_of_mem r hr'))
      · intro hex
        obtain ⟨r', hr', hmr'⟩ := hex
        rcases List.mem_cons.mp hr' with rfl | hr'
        · exact absurd hmr' hm
        · obtain ⟨k, hk, heq, hkey, hbefore⟩ := (ih e).2 ⟨r', hr', hmr'⟩
          refine ⟨k + 1, by simpa using hk, by simpa [hloop] using heq, by simpa using hkey, ?_⟩
          intro m hm'
          cases m with
          | zero => simpa using (by simpa using hm : matchCI e r = false)
          | succ m => simpa using hbefore m (by omega)

/-- C8 (counterexample): under the code's case-insensitive substring
test, the empty mention matches every representative (the empty string
is a substring of anything), yet `normalize` returns the empty mention
unchanged rather than the first matching representative — the `if not
e` guard bypasses the matching loop. -/
theorem c8_empty_mention_bypasses_matching :
    matchCI "" "Alpha" = true ∧ App.normalize ["Alpha"] "" = "" ∧
      ("" : String) ≠ "Alpha" :=
  ⟨by decide, rfl, by decide⟩

/-- C8 (amended): a NON-EMPTY mention maps to the first representative
(in list order) that matches it by case-insensitive substring
containment in either direction; a non-empty mention matching no
representative, and every empty mention, is returned unchanged. -/
theorem c8_first_match_normalization (reps : List String) (e : String) :
    (e ≠ "" → (∀ r ∈ reps, matchCI e r = false) → App.normalize reps e = e) ∧
    (e ≠ "" → (∃ r ∈ reps, matchCI e r = true) →
      ∃ k, k < reps.length ∧ App.normalize reps e = reps.getD k "" ∧
        matchCI e (reps.getD k "") = true ∧
        ∀ m, m < k → matchCI e (reps.getD m "") = false) ∧
    App.normalize reps "" = "" := by
  refine ⟨fun he hall => ?_, fun he hex => ?_, by simp [App.normalize]⟩
  · rw [App.normalize, if_neg he]
    exact (normLoop_first reps e).1 hall
  · rw [App.normalize, if_neg he]
    exact (normLoop_first reps e).2 hex

/-- C8 witness: the mention "bet" matches "Beta" (position 1) and not
"Alpha" (position 0), so it is normalized to "Beta", the first match. -/
theorem c8_witness :
    ∃ k, k < (["Alpha", "Beta"] : List String).length ∧
      App.normalize ["Alpha", "Beta"] "bet" = ["Alpha", "Beta"].getD k "" ∧
      matchCI "bet" (["Alpha", "Beta"].getD k "") = true ∧
      ∀ m, m < k → matchCI "bet" (["Alpha", "Beta"].getD m "") = false :=
  (c8_first_match_normalization ["Alpha", "Beta"] "bet").2.1 (by decide)
    ⟨"Beta", by decide, by decide⟩

/-! ### Zero-norm guard of the embedding normalization -/

/-- C9: before any cosine comparison, `deduplicate_entities` divides
each embedding by `safeNorm`, which substitutes the epsilon 1e-9 for a
zero L2 norm; the divisor is strictly positive — never zero — for every
embedding vector, including the all-zero vector, whose norm is exactly
the case the guard rewrites. -/
theorem c9_normalization_divisor_positive :
    (∀ v : List ℝ, 0 < safeNorm v) ∧
    (∀ n : Nat, l2norm (List.replicate n 0) = 0 ∧
      safeNorm (List.replicate n 0) = 1e-9) := by
  have hzero : ∀ n : Nat, l2norm (List.replicate n (0 : ℝ)) = 0 := by
    intro n
    rw [l2norm, sumSq]
    simp [List.map_replicate, List.sum_replicate]
  refine ⟨fun v => ?_, fun n => ⟨hzero n, ?_⟩⟩
  · rw [safeNorm]
    split_ifs with h
    · norm_num
    · exact lt_of_le_of_ne (Real.sqrt_nonneg _) (Ne.symm h)
  · rw [safeNorm, if_pos (hzero n)]
